import Mathlib

/-!
# Verification of the ADOT-511 command listener and outbound pipeline

Shallow embedding of the core logic of the repository:

* `src/meshtastic_sender.py` — `MeshtasticSender.send_message` and
  `MeshtasticSender._split_message` (the message chunker);
* `src/meshtastic_listener.py` — the packet admission filter and echo check in
  `_on_message_received`, the command grammar of `_process_command`,
  `_normalize_interstate`, and the command handlers;
* `src/main.py` — the accident deduplication loop of `main`;
* `src/adot_client.py` — the signatures of the traffic-data collaborator.

Strings are embedded as `List Char`.  Python character classes (`\s`, `\w`,
`\d` of the `re` module, and `str.strip`) are modelled at ASCII granularity:
`Char.isWhitespace` for `\s`/`strip`, `Char.isAlpha || Char.isDigit || '_'`
for `\w`, and `Char.isDigit` for `\d`.  All inputs exercised by the source
are ASCII, where these classes agree with Python's.
-/

namespace Adot

/-- Strings of the Python source, embedded as character lists. -/
abbrev Str := List Char

/-- `str.lstrip()`: drop leading whitespace. -/
def lstrip (l : Str) : Str := l.dropWhile Char.isWhitespace

/-- `str.rstrip()`: drop trailing whitespace. -/
def rstrip (l : Str) : Str := (l.reverse.dropWhile Char.isWhitespace).reverse

/-- `str.strip()`: drop whitespace on both ends. -/
def strip (l : Str) : Str := lstrip (rstrip l)

/-- `str.lower()` applied characterwise (ASCII). -/
def lowerStr (l : Str) : Str := l.map Char.toLower

/-- `str.upper()` applied characterwise (ASCII). -/
def upperStr (l : Str) : Str := l.map Char.toUpper

/-- `needle.isPrefixOf hay` written out for `List Char`. -/
def startsWith : Str → Str → Bool
  | [], _ => true
  | _ :: _, [] => false
  | a :: as, b :: bs => a == b && startsWith as bs

/-- Python's `needle in hay` substring test. -/
def containsSub (needle : Str) : Str → Bool
  | [] => needle.isEmpty
  | c :: rest => startsWith needle (c :: rest) || containsSub needle rest

/-- Decimal rendering of a `Nat`, as Python's f-string interpolation does. -/
def natStr (n : Nat) : Str := (toString n).toList

/-! ## `MeshtasticSender._split_message` (src/meshtastic_sender.py:117-161) -/

/-- `MeshtasticSender.MAX_MESSAGE_LENGTH` (src/meshtastic_sender.py:15),
documented there as "Maximum message length for Meshtastic". -/
def MAX_MESSAGE_LENGTH : Nat := 200

/-- The preferred break characters of `_split_message`
(src/meshtastic_sender.py:146): `[' ', ',', ')', ']', '@', '-']`. -/
def breakChars : Str := [' ', ',', ')', ']', '@', '-']

/-- The loop `for i in range(max_length - 1, max_length // 2, -1)`
(src/meshtastic_sender.py:145-148): candidate indices from `max_length - 1`
down to `max_length / 2 + 1`, inclusive. -/
def breakCandidates (maxLength : Nat) : List Nat :=
  (List.range' (maxLength / 2 + 1) (maxLength - 1 - maxLength / 2)).reverse

/-- The break point chosen by `_split_message` for a `remaining` longer than
`maxLength`: the first candidate index holding a break character gives
`i + 1`; otherwise `break_point = max_length` (src/meshtastic_sender.py:142-148). -/
def breakPoint (remaining : Str) (maxLength : Nat) : Nat :=
  match (breakCandidates maxLength).find? (fun i => (remaining.getD i ' ') ∈ breakChars) with
  | some i => i + 1
  | none => maxLength

/-- The `while remaining:` loop of `_split_message`
(src/meshtastic_sender.py:135-159), with explicit fuel so the function is
total; `none` models fuel exhaustion (the loop still running).  `partNum`
is `part_num`; a continuation marker `"..."` is prefixed when
`part_num > 1` (line 154-155), after the cut and the length checks. -/
def splitLoop (maxLength : Nat) : Nat → Str → Nat → Option (List Str)
  | 0, _, _ => none
  | _ + 1, [], _ => some []
  | fuel + 1, c :: rest, partNum =>
    if (c :: rest).length ≤ maxLength then
      some [c :: rest]
    else
      match splitLoop maxLength fuel
          (lstrip ((c :: rest).drop (breakPoint (c :: rest) maxLength))) (partNum + 1) with
      | none => none
      | some parts =>
        some ((if partNum > 1
            then '.' :: '.' :: '.' :: rstrip ((c :: rest).take (breakPoint (c :: rest) maxLength))
            else rstrip ((c :: rest).take (breakPoint (c :: rest) maxLength))) :: parts)

/-- `MeshtasticSender._split_message(message, max_length)`
(src/meshtastic_sender.py:117-161).  The fuel `message.length + 1` is enough
whenever `max_length ≥ 1` (proved below); `none` models non-termination. -/
def split_message (message : Str) (maxLength : Nat) : Option (List Str) :=
  if message.length ≤ maxLength then some [message]
  else splitLoop maxLength (message.length + 1) message 1

/-- The continuation marker `"..."` of `_split_message`
(src/meshtastic_sender.py:155). -/
def marker : Str := ['.', '.', '.']

/-! ## `MeshtasticListener._normalize_interstate`
(src/meshtastic_listener.py:254-281)

The source applies `re.sub(r'\b([Ii])(-?)(\d+)\b', lambda m: f"I-{m.group(3)}", location)`.
It is embedded as a left-to-right scanner: `re.sub` replaces leftmost,
non-overlapping matches, and a `\b` before a word character holds exactly
when the previous character is absent or not a word character, so the
scanner tracks whether the previously scanned character was a word
character.  Since `\d+` is greedy and any shorter digit run is followed by
a digit (a word character), the trailing `\b` holds exactly when the
maximal digit run is followed by a non-word character or the end. -/

/-- Python's `\w` word character (ASCII): letter, digit or underscore. -/
def isWordChar (c : Char) : Bool := c.isAlpha || c.isDigit || c == '_'

/-- The trailing `\b` after `\d+`: the character following the match, if
any, is not a word character. -/
def boundaryOk : Str → Bool
  | [] => true
  | c :: _ => !(isWordChar c)

/-- The `(-?)` group: consume one optional dash. -/
def stripDash : Str → Str
  | [] => []
  | c :: r => if c = '-' then r else c :: r

/-- A match of `[Ii](-?)(\d+)\b` at the head of the list (the leading `\b`
is the caller's responsibility).  Returns the replacement `I-<digits>`
produced by `normalize_match` (src/meshtastic_listener.py:274-276) and the
remainder after the match; `none` when the pattern cannot match here. -/
def matchAt : Str → Option (Str × Str)
  | [] => none
  | c :: rest =>
    if c == 'I' || c == 'i' then
      if ((stripDash rest).takeWhile Char.isDigit).isEmpty then none
      else if boundaryOk ((stripDash rest).dropWhile Char.isDigit) then
        some ('I' :: '-' :: (stripDash rest).takeWhile Char.isDigit,
          (stripDash rest).dropWhile Char.isDigit)
      else none
    else none

/-- The `re.sub` scan, with fuel (one unit per consumed character; the
entry point passes the list length, which suffices because every step
consumes at least one character).  The boolean argument records whether the
previous character was a word character (initially false: start-of-string
is a word boundary). -/
def normAux : Nat → Bool → Str → Str
  | 0, _, _ => []
  | _ + 1, _, [] => []
  | fuel + 1, prevW, c :: rest =>
    if prevW then c :: normAux fuel (isWordChar c) rest
    else
      match matchAt (c :: rest) with
      | some (rep, after) => rep ++ normAux fuel true after
      | none => c :: normAux fuel (isWordChar c) rest

/-- `MeshtasticListener._normalize_interstate(location)`
(src/meshtastic_listener.py:254-281). -/
def normalize_interstate (l : Str) : Str := normAux l.length false l

/-- The scan at an arbitrary boundary state, with exactly enough fuel.
`normalize_interstate l = normRun false l`. -/
def normRun (w : Bool) (l : Str) : Str := normAux l.length w l

/-- `true` iff every word-boundary-delimited occurrence of `[Ii](-?)(\d+)`
in the list is already in the canonical form `I-<digits>`, i.e. the matched
text is equal to the replacement `re.sub` would produce for it. -/
def canonAux : Nat → Bool → Str → Bool
  | 0, _, _ => true
  | _ + 1, _, [] => true
  | fuel + 1, prevW, c :: rest =>
    if prevW then canonAux fuel (isWordChar c) rest
    else
      match matchAt (c :: rest) with
      | some (rep, after) =>
        ((c :: rest).take ((c :: rest).length - after.length) == rep)
          && canonAux fuel true after
      | none => canonAux fuel (isWordChar c) rest

/-- All boundary-delimited pattern occurrences are in canonical form. -/
def allCanonical (l : Str) : Bool := canonAux l.length false l

/-- The canonicity check at an arbitrary boundary state. -/
def canonRun (w : Bool) (l : Str) : Bool := canonAux l.length w l

/-- Modelled from the words of claim C4: rewrite *every* substring matching
`[Ii](-?)(\d+)` into `I-<digits>` wherever it occurs, with **no**
word-boundary requirement — the same leftmost non-overlapping scan, but a
match may start or end inside a word.  This is the reading the claim
asserts of `_normalize_interstate`; the source's pattern carries `\b` on
both sides. -/
def matchAtNB : Str → Option (Str × Str)
  | [] => none
  | c :: rest =>
    if c == 'I' || c == 'i' then
      if ((stripDash rest).takeWhile Char.isDigit).isEmpty then none
      else
        some ('I' :: '-' :: (stripDash rest).takeWhile Char.isDigit,
          (stripDash rest).dropWhile Char.isDigit)
    else none

/-- The claim-side rewriting scan without word boundaries (see `matchAtNB`). -/
def nbAux : Nat → Str → Str
  | 0, _ => []
  | _ + 1, [] => []
  | fuel + 1, c :: rest =>
    match matchAtNB (c :: rest) with
    | some (rep, after) => rep ++ nbAux fuel after
    | none => c :: nbAux fuel rest

/-- Claim C4's reading of interstate normalization: every occurrence of the
pattern is rewritten, wherever it occurs. -/
def rewrite_everywhere (l : Str) : Str := nbAux l.length l

/-! ## The packet pipeline of `MeshtasticListener`
(src/meshtastic_listener.py) -/

/-- The decoded payload of an inbound packet — `packet['decoded']` — with
the optional keys read by the listener; `none` models an absent key. -/
structure Decoded where
  portnum : Option Str
  text : Option Str
deriving DecidableEq

/-- An inbound packet as read by `_on_message_received`: `decoded`,
`channel` (read as `packet.get('channel', 0)`) and `from` (read as
`packet.get('from', 'Unknown')`; `none` models an absent or non-numeric
sender, which never equals the local node number). -/
structure Packet where
  decoded : Option Decoded
  channel : Option Nat
  sender : Option Nat
deriving DecidableEq

/-- The admission filter of `_on_message_received`
(src/meshtastic_listener.py:163-186), in source order: reject when there is
no decoded payload; reject when `portnum` (default `''`) is not
`'TEXT_MESSAGE_APP'`; reject when the packet channel (default `0`) differs
from the configured channel; reject when the payload has no text.  Returns
the message text when the packet is admitted. -/
def admitted_text (channelIndex : Nat) (pkt : Packet) : Option Str :=
  match pkt.decoded with
  | none => none
  | some d =>
    if d.portnum.getD [] ≠ "TEXT_MESSAGE_APP".toList then none
    else if pkt.channel.getD 0 ≠ channelIndex then none
    else
      match d.text with
      | none => none
      | some t => some t

/-- The self-echo test of `_on_message_received`
(src/meshtastic_listener.py:190-195): when the transport exposes the local
node (`myNode = some n`), the packet is ours iff its sender equals `n`. -/
def isOurMessage (myNode : Option Nat) (pkt : Packet) : Bool :=
  match myNode, pkt.sender with
  | some n, some s => s == n
  | _, _ => false

/-- The text handed to `_process_command`: an admitted, non-echo packet's
text (src/meshtastic_listener.py:206-208); `none` when the packet is
rejected by the filter or is a self-echo. -/
def dispatched_text (channelIndex : Nat) (myNode : Option Nat) (pkt : Packet) :
    Option Str :=
  match admitted_text channelIndex pkt with
  | none => none
  | some t => if isOurMessage myNode pkt then none else some t

/-! ## The command grammar of `_process_command`
(src/meshtastic_listener.py:22-25, 213-235) -/

/-- The keywords of `COMMAND_PATTERN`, in alternation order. -/
def keywords : List Str :=
  ["accidents".toList, "events".toList, "alerts".toList, "weather".toList]

/-- Does the stripped text begin with this keyword (case-insensitively)
followed by at least one whitespace character (`\s+`)? -/
def matchKeyword (t : Str) (kw : Str) : Bool :=
  lowerStr (t.take kw.length) == kw
    && (match t.drop kw.length with
        | c :: _ => c.isWhitespace
        | [] => false)

/-- Matching
`COMMAND_PATTERN = r'^\s*(accidents|events|alerts|weather)\s+(.+?)\s*$'`
(compiled case-insensitive) against `message.strip()`, as `_process_command`
does (src/meshtastic_listener.py:222-230).  On the stripped text — which
neither starts nor ends with whitespace — the regex matches iff the text is
a keyword, one or more whitespace characters, and a non-empty remainder
containing no newline: `\s+` is greedy, `.` does not match a newline, and
`$` anchors at the end (the stripped text has no trailing newline), so
`group(2)` is exactly the remainder after the whitespace run.  Returns
`(group(1).lower(), group(2))`. -/
def parse_command (message : Str) : Option (Str × Str) :=
  match keywords.find? (fun kw => matchKeyword (lstrip (strip message)) kw) with
  | none => none
  | some kw =>
    if ((lstrip (strip message)).drop kw.length).dropWhile Char.isWhitespace = []
      ∨ (((lstrip (strip message)).drop kw.length).dropWhile Char.isWhitespace).contains '\n'
    then none
    else some (kw, ((lstrip (strip message)).drop kw.length).dropWhile Char.isWhitespace)

/-! ## The command handlers (src/meshtastic_listener.py:283-396) and the
traffic-data collaborator (src/adot_client.py) -/

/-- An event dictionary from the ADOT API, restricted to the keys the
listener reads; `none` models an absent key. -/
structure Event where
  eventType : Option Str
  roadwayName : Option Str
  direction : Option Str
  location : Option Str
deriving DecidableEq

/-- The `ADOTClient` collaborator as observable from `_process_command`.
`ADOTClient.get_events` and `ADOTClient.get_accidents` take no `location`
parameter (src/adot_client.py:33, 140), while `_handle_events_command` and
`_handle_accidents_command` call them with a `location=` keyword argument
(src/meshtastic_listener.py:322, 293), so in the source both calls raise
`TypeError` before the client body runs; `eventsTypeError` and
`accidentsTypeError` hold the `str()` text of those exceptions, supplied by
the Python runtime.  `get_alerts()` is called without arguments and
succeeds; `alerts` holds the `str(alert)` rendering of each returned
alert. -/
structure Collab where
  eventsTypeError : Str
  accidentsTypeError : Str
  alerts : List Str

/-- `_handle_accidents_command` (src/meshtastic_listener.py:283-310): its
first statement, `self.adot_client.get_accidents(location=location)`,
raises `TypeError` (see `Collab`); the rest of the handler never runs. -/
def handle_accidents_command (collab : Collab) (_location : Str) :
    Except Str (List Str) :=
  Except.error collab.accidentsTypeError

/-- `_handle_events_command` (src/meshtastic_listener.py:312-345): its
first statement, `self.adot_client.get_events(location=location)`, raises
`TypeError` (see `Collab`); the rest of the handler never runs. -/
def handle_events_command (collab : Collab) (_location : Str) :
    Except Str (List Str) :=
  Except.error collab.eventsTypeError

/-- `_format_event_message` (src/meshtastic_listener.py:461-485). -/
def format_event_message (e : Event) : Str :=
  List.intercalate " ".toList
    ([upperStr (e.eventType.getD "Event".toList) ++ ": ".toList
        ++ e.roadwayName.getD "Unknown road".toList]
      ++ (if (e.direction.getD []).isEmpty then []
          else ["(".toList ++ e.direction.getD [] ++ ")".toList])
      ++ (if (e.location.getD []).isEmpty then []
          else ["@ ".toList ++ e.location.getD []]))

/-- The body of `_handle_events_command` past the collaborator call
(src/meshtastic_listener.py:324-345), run on a result `events` of the spec
§6 contract `fetch_events(location?) -> [EventRecord]`: filter out events
whose `EventType` contains `'accident'` case-insensitively; when none
remain, send exactly one `No events found for '<location>'` message;
otherwise format and send the first `max_results` events.  In the source
this code is unreachable: the preceding call raises (see
`handle_events_command`). -/
def handle_events_body (location : Str) (events : List Event)
    (maxResults : Nat) : List Str :=
  if (events.filter (fun e =>
      !(containsSub "accident".toList (lowerStr (e.eventType.getD []))))).isEmpty then
    ["No events found for '".toList ++ location ++ "'".toList]
  else
    ((events.filter (fun e =>
        !(containsSub "accident".toList (lowerStr (e.eventType.getD []))))).take
      maxResults).map format_event_message

/-- `_handle_alerts_command` (src/meshtastic_listener.py:347-385):
`get_alerts()` succeeds; on an empty result one `No alerts found` message,
otherwise a count summary followed by the first `max_results` alerts, each
truncated to 200 characters (`str(alert)[:200]`). -/
def handle_alerts_command (collab : Collab) (maxResults : Nat) : List Str :=
  if collab.alerts.isEmpty then ["No alerts found".toList]
  else
    (if collab.alerts.length > maxResults then
      "Found ".toList ++ natStr collab.alerts.length ++ " alerts (showing ".toList
        ++ natStr maxResults ++ ")".toList
     else "Found ".toList ++ natStr collab.alerts.length ++ " alert(s)".toList)
    :: (collab.alerts.take maxResults).map (fun a => a.take 200)

/-- `_handle_weather_command` (src/meshtastic_listener.py:387-396). -/
def handle_weather_command (_location : Str) : List Str :=
  ["Weather command not yet implemented".toList]

/-- `_process_command` (src/meshtastic_listener.py:213-252): parse the
command against the stripped message; on no match return silently;
otherwise strip and normalize the location argument and dispatch on the
command type.  An exception raised by a handler is caught at the dispatch
boundary and converted into a single outbound
`Error processing <type> request: <str(e)[:100]>` message (lines 249-252).
The returned list holds the texts passed to `mesh_sender.send_message`, in
order. -/
def process_command (message : Str) (collab : Collab) (maxResults : Nat) :
    List Str :=
  match parse_command message with
  | none => []
  | some (commandType, arg) =>
    match
      (if commandType = "accidents".toList then
        handle_accidents_command collab (normalize_interstate (strip arg))
      else if commandType = "events".toList then
        handle_events_command collab (normalize_interstate (strip arg))
      else if commandType = "alerts".toList then
        Except.ok (handle_alerts_command collab maxResults)
      else if commandType = "weather".toList then
        Except.ok (handle_weather_command (normalize_interstate (strip arg)))
      else Except.ok []) with
    | Except.ok msgs => msgs
    | Except.error e =>
      ["Error processing ".toList ++ commandType ++ " request: ".toList ++ e.take 100]

/-- `_on_message_received` end to end: the texts sent in response to one
inbound packet (each goes out through `mesh_sender.send_message` on the
configured channel). -/
def on_message_received (channelIndex : Nat) (myNode : Option Nat)
    (pkt : Packet) (collab : Collab) (maxResults : Nat) : List Str :=
  match dispatched_text channelIndex myNode pkt with
  | none => []
  | some t => process_command t collab maxResults

/-- The concrete packet of claim C1: a text packet `events phoenix` on
channel 0, from node 7 (the listener's node is 1). -/
def c1_packet : Packet :=
  { decoded := some { portnum := some "TEXT_MESSAGE_APP".toList,
                      text := some "events phoenix".toList },
    channel := some 0,
    sender := some 7 }

/-! ## `MeshtasticSender.send_message` (src/meshtastic_sender.py:54-115) -/

/-- `send_message`, with the transport modelled by `iface`: `none` is a
missing interface (`self.interface is None`), `some f` maps a fragment text
to the `sendText` outcome — `Except.error` a raised exception, `Except.ok`
a returned delivery id.  For a message longer than `MAX_MESSAGE_LENGTH` the
source splits it and sends each part inside its own `try`/`except` that
only logs (lines 75-88), a missing interface also only logs, and the branch
ends with an unconditional `return True` (line 90).  Only the
single-message branch can return `False`: when `sendText` raises (lines
97-107); a missing interface there also returns `True` (lines 108-111). -/
def send_message (message : Str) (iface : Option (Str → Except Unit Nat)) : Bool :=
  if message.length > MAX_MESSAGE_LENGTH then
    true
  else
    match iface with
    | none => true
    | some f =>
      match f message with
      | Except.ok _ => true
      | Except.error _ => false

/-! ## The accident deduplication loop of `main` (src/main.py:229-263) -/

/-- An accident dictionary as deduplicated by `main`; `none` models an
absent key (every key is read with `.get(key, '')`). -/
structure Accident where
  roadwayName : Option Str
  directionOfTravel : Option Str
  location : Option Str
  lastUpdated : Option Str
  description : Option Str
deriving DecidableEq

/-- The `accident_key` tuple of `main` (src/main.py:235-240). -/
def accident_key (a : Accident) : Str × Str × Str × Str :=
  (a.roadwayName.getD [], a.directionOfTravel.getD [],
   a.location.getD [], a.lastUpdated.getD [])

/-- The deduplication loop of `main` (src/main.py:229-260): iterate the
records in source order; skip a record whose key is already in
`seen_accidents`; otherwise add its key and process it (format and
send/print).  Returns the processed records in order; the Python `set` is
modelled by a list with membership. -/
def dedup_accidents : List Accident → List (Str × Str × Str × Str) → List Accident
  | [], _ => []
  | a :: rest, seen =>
    if accident_key a ∈ seen then dedup_accidents rest seen
    else a :: dedup_accidents rest (accident_key a :: seen)

/-- Concrete accidents for the C6 witness: identical dedup keys, different
descriptions. -/
def accident_a : Accident :=
  { roadwayName := some "I-10".toList,
    directionOfTravel := some "Eastbound".toList,
    location := some "I-10 and Broadway".toList,
    lastUpdated := some "2025-12-11 14:30:00 MST".toList,
    description := some "two vehicles blocking".toList }

/-- See `accident_a`. -/
def accident_b : Accident :=
  { roadwayName := some "I-10".toList,
    directionOfTravel := some "Eastbound".toList,
    location := some "I-10 and Broadway".toList,
    lastUpdated := some "2025-12-11 14:30:00 MST".toList,
    description := some "debris on roadway".toList }

/-! ## Lemmas about `_split_message` -/

theorem length_dropWhile_le (p : Char → Bool) (l : Str) :
    (l.dropWhile p).length ≤ l.length := by
  induction l with
  | nil => simp [List.dropWhile]
  | cons a l ih =>
    simp only [List.dropWhile]
    split
    · exact Nat.le_succ_of_le ih
    · simp

theorem length_lstrip_le (l : Str) : (lstrip l).length ≤ l.length :=
  length_dropWhile_le _ _

theorem breakPoint_pos (remaining : Str) (maxLength : Nat) (h : 1 ≤ maxLength) :
    1 ≤ breakPoint remaining maxLength := by
  unfold breakPoint
  cases (breakCandidates maxLength).find? (fun i => (remaining.getD i ' ') ∈ breakChars) with
  | none => simpa using h
  | some i => simp

/-- Progress of one iteration of the `while remaining:` loop: when the loop
body runs (`remaining` longer than `max_length ≥ 1`), the new `remaining`
is strictly shorter. -/
theorem split_remaining_shrinks (remaining : Str) (maxLength : Nat)
    (hL : 1 ≤ maxLength) (hlen : maxLength < remaining.length) :
    (lstrip (remaining.drop (breakPoint remaining maxLength))).length < remaining.length := by
  have h1 := breakPoint_pos remaining maxLength hL
  have h2 := length_lstrip_le (remaining.drop (breakPoint remaining maxLength))
  have h3 : (remaining.drop (breakPoint remaining maxLength)).length
      = remaining.length - breakPoint remaining maxLength := List.length_drop _ _
  omega

theorem splitLoop_isSome (maxLength : Nat) (hL : 1 ≤ maxLength) :
    ∀ fuel remaining partNum, remaining.length < fuel →
      (splitLoop maxLength fuel remaining partNum).isSome := by
  intro fuel
  induction fuel with
  | zero => intro remaining p h; omega
  | succ fuel ih =>
    intro remaining p h
    match remaining with
    | [] => simp [splitLoop]
    | c :: rest =>
      by_cases hlen : (c :: rest).length ≤ maxLength
      · simp only [splitLoop]
        rw [if_pos hlen]
        simp
      · have hshr := split_remaining_shrinks (c :: rest) maxLength hL (by omega)
        have hrec := ih (lstrip ((c :: rest).drop (breakPoint (c :: rest) maxLength))) (p + 1)
          (by omega)
        rw [Option.isSome_iff_exists] at hrec
        obtain ⟨parts, hparts⟩ := hrec
        simp only [splitLoop]
        rw [if_neg hlen, hparts]
        simp

/-- Every part of the result that is not the last one, produced with
`part_num ≥ 2`, carries the continuation marker. -/
theorem splitLoop_middle_marker (maxLength : Nat) :
    ∀ fuel remaining partNum parts, 2 ≤ partNum →
      splitLoop maxLength fuel remaining partNum = some parts →
      ∀ part ∈ parts.dropLast, part.take 3 = marker := by
  intro fuel
  induction fuel with
  | zero => intro remaining p parts _ h; simp [splitLoop] at h
  | succ fuel ih =>
    intro remaining p parts hp h
    match remaining with
    | [] =>
      simp only [splitLoop] at h
      cases h
      simp
    | c :: rest =>
      by_cases hlen : (c :: rest).length ≤ maxLength
      · simp only [splitLoop] at h
        rw [if_pos hlen] at h
        cases h
        simp
      · simp only [splitLoop] at h
        rw [if_neg hlen] at h
        cases hrec : splitLoop maxLength fuel
            (lstrip ((c :: rest).drop (breakPoint (c :: rest) maxLength))) (p + 1) with
        | none => rw [hrec] at h; cases h
        | some ps =>
          rw [hrec] at h
          cases h
          have hmark : (if p > 1
              then '.' :: '.' :: '.' :: rstrip ((c :: rest).take (breakPoint (c :: rest) maxLength))
              else rstrip ((c :: rest).take (breakPoint (c :: rest) maxLength))).take 3
              = marker := by
            have : p > 1 := by omega
            simp [this, marker, List.take]
          intro part hpart
          cases ps with
          | nil => simp at hpart
          | cons q qs =>
            rw [List.dropLast_cons₂] at hpart
            rcases List.mem_cons.mp hpart with h1 | h2
            · rw [h1]; exact hmark
            · exact ih _ (p + 1) (q :: qs) (by omega) hrec part h2

/-- Fragments of `_split_message msg L` other than the first and the last
all begin with the continuation marker. -/
theorem split_message_middle_marker (msg : Str) (L : Nat) (parts : List Str)
    (hlen : L < msg.length) (h : split_message msg L = some parts) :
    ∀ part ∈ (parts.drop 1).dropLast, part.take 3 = marker := by
  unfold split_message at h
  rw [if_neg (by omega)] at h
  match msg, hlen, h with
  | c :: rest, hlen, h =>
    simp only [splitLoop] at h
    rw [if_neg (by omega)] at h
    cases hrec : splitLoop L ((c :: rest).length + 1 - 1)
        (lstrip ((c :: rest).drop (breakPoint (c :: rest) L))) (1 + 1) with
    | none => rw [show (c :: rest).length + 1 - 1 = (c :: rest).length from rfl] at hrec
              rw [hrec] at h; cases h
    | some ps =>
      rw [show (c :: rest).length + 1 - 1 = (c :: rest).length from rfl] at hrec
      rw [hrec] at h
      cases h
      simp only [List.drop_succ_cons, List.drop_zero]
      exact splitLoop_middle_marker L ((c :: rest).length) _ (1 + 1) ps (by omega) hrec

/-! ## Claim theorems about `_split_message` -/

set_option maxRecDepth 10000 in
/-- **C2** (code-bug evaluation).  The claim states that every fragment
returned by `_split_message` has length at most the max length, the
continuation marker included.  The code appends the `"..."` marker *after*
the break-point cut (src/meshtastic_sender.py:151-155), so a middle fragment
can exceed the limit by the marker length: on 25 `'a'`s with max length 10
the second fragment is `"...aaaaaaaaaa"`, of length 13 > 10, and on 425
`'a'`s with the production `MAX_MESSAGE_LENGTH = 200` the second fragment
has length 203 > 200. -/
theorem claim_c2_fragment_exceeds_limit :
    split_message (List.replicate 25 'a') 10 =
      some [List.replicate 10 'a', '.' :: '.' :: '.' :: List.replicate 10 'a',
        List.replicate 5 'a'] ∧
    10 < ('.' :: '.' :: '.' :: List.replicate 10 'a').length ∧
    split_message (List.replicate 425 'a') MAX_MESSAGE_LENGTH =
      some [List.replicate 200 'a', '.' :: '.' :: '.' :: List.replicate 200 'a',
        List.replicate 25 'a'] ∧
    MAX_MESSAGE_LENGTH < ('.' :: '.' :: '.' :: List.replicate 200 'a').length := by
  refine ⟨by decide, by decide, by decide, by decide⟩

/-- **C3** (counterexample).  The claim states that every fragment after the
first, the last included, begins with `"..."`; but the final fragment is
appended by the `len(remaining) <= max_length` branch without the marker
(src/meshtastic_sender.py:136-139): on 25 `'a'`s with max length 10, the
third and last fragment is `"aaaaa"`, which does not begin with `"..."`. -/
theorem claim_c3_counterexample :
    split_message (List.replicate 25 'a') 10 =
      some [List.replicate 10 'a', '.' :: '.' :: '.' :: List.replicate 10 'a',
        List.replicate 5 'a'] ∧
    (List.replicate 5 'a').take 3 ≠ marker := by
  refine ⟨by decide, by decide⟩

/-- **C3** (amended).  For every input text longer than the max length,
every fragment strictly between the first and the last in the list returned
by `_split_message` begins with the continuation marker `"..."`; the last
fragment is emitted without the marker being added. -/
theorem claim_c3_amended_middle_fragments_marked (msg : Str) (L : Nat) (parts : List Str)
    (hlen : L < msg.length) (h : split_message msg L = some parts) :
    ∀ part ∈ (parts.drop 1).dropLast, part.take 3 = marker :=
  split_message_middle_marker msg L parts hlen h

/-- Witness for the amended C3 theorem at a concrete split. -/
theorem claim_c3_witness :
    ('.' :: '.' :: '.' :: List.replicate 10 'a').take 3 = marker :=
  claim_c3_amended_middle_fragments_marked (List.replicate 25 'a') 10
    [List.replicate 10 'a', '.' :: '.' :: '.' :: List.replicate 10 'a', List.replicate 5 'a']
    (by decide) (by decide) ('.' :: '.' :: '.' :: List.replicate 10 'a') (by decide)

/-- **C8**.  For every non-empty input text and positive max length the
splitting loop terminates: running it with fuel `len(message) + 1` returns a
result, and the progress invariant holds — whenever the loop body runs, the
new `remaining` is strictly shorter than the old one. -/
theorem claim_c8_split_terminates (msg : Str) (L : Nat) (_hmsg : msg ≠ []) (hL : 1 ≤ L) :
    (split_message msg L).isSome ∧
    ∀ remaining : Str, L < remaining.length →
      (lstrip (remaining.drop (breakPoint remaining L))).length < remaining.length := by
  constructor
  · unfold split_message
    by_cases h : msg.length ≤ L
    · rw [if_pos h]; rfl
    · rw [if_neg h]
      exact splitLoop_isSome L hL _ _ _ (by omega)
  · intro remaining hrem
    exact split_remaining_shrinks remaining L hL hrem

/-- Witness for C8 at a concrete message and max length. -/
theorem claim_c8_witness :
    (split_message ('a' :: 'b' :: 'c' :: []) 1).isSome ∧
    (lstrip (List.drop (breakPoint ('x' :: 'y' :: []) 1) ('x' :: 'y' :: []))).length
      < ('x' :: 'y' :: []).length :=
  ⟨(claim_c8_split_terminates ('a' :: 'b' :: 'c' :: []) 1 (by decide) (by decide)).1,
   (claim_c8_split_terminates ('a' :: 'b' :: 'c' :: []) 1 (by decide) (by decide)).2
     ('x' :: 'y' :: []) (by decide)⟩

/-! ## Lemmas about `_normalize_interstate` -/

theorem mem_takeWhile (p : Char → Bool) :
    ∀ (l : Str) (a : Char), a ∈ l.takeWhile p → p a = true := by
  intro l
  induction l with
  | nil => intro a h; simp [List.takeWhile] at h
  | cons c rest ih =>
    intro a h
    simp only [List.takeWhile] at h
    by_cases hc : p c = true
    · rw [hc] at h
      rcases List.mem_cons.mp h with h1 | h2
      · rw [h1]; exact hc
      · exact ih a h2
    · rw [Bool.eq_false_iff.mpr hc] at h
      simp at h

theorem takeWhile_append_all (p : Char → Bool) :
    ∀ (ds x : Str), (∀ a ∈ ds, p a = true) →
      (ds ++ x).takeWhile p = ds ++ x.takeWhile p := by
  intro ds
  induction ds with
  | nil => intro x _; simp
  | cons d ds ih =>
    intro x h
    have hd : p d = true := h d (by simp)
    simp only [List.cons_append, List.takeWhile, hd, List.append_eq]
    rw [ih x (fun a ha => h a (by simp [ha]))]

theorem dropWhile_append_all (p : Char → Bool) :
    ∀ (ds x : Str), (∀ a ∈ ds, p a = true) →
      (ds ++ x).dropWhile p = x.dropWhile p := by
  intro ds
  induction ds with
  | nil => intro x _; simp
  | cons d ds ih =>
    intro x h
    have hd : p d = true := h d (by simp)
    simp only [List.cons_append, List.dropWhile, hd, List.append_eq]
    exact ih x (fun a ha => h a (by simp [ha]))

theorem dropWhile_head_not (p : Char → Bool) :
    ∀ (l : Str) (a : Char) (t : Str), l.dropWhile p = a :: t → p a = false := by
  intro l
  induction l with
  | nil => intro a t h; simp [List.dropWhile] at h
  | cons c rest ih =>
    intro a t h
    simp only [List.dropWhile] at h
    by_cases hc : p c = true
    · rw [hc] at h; exact ih a t h
    · rw [Bool.eq_false_iff.mpr hc] at h
      cases h
      exact Bool.eq_false_iff.mpr hc

theorem dropWhile_eq_self_of_takeWhile_nil (p : Char → Bool) :
    ∀ l : Str, l.takeWhile p = [] → l.dropWhile p = l := by
  intro l h
  cases l with
  | nil => rfl
  | cons c rest =>
    simp only [List.takeWhile] at h
    by_cases hc : p c = true
    · rw [hc] at h; simp at h
    · simp only [List.dropWhile, Bool.eq_false_iff.mpr hc]

theorem takeWhile_cons_nil_iff (p : Char → Bool) (c : Char) (rest : Str) :
    (c :: rest).takeWhile p = [] ↔ p c = false := by
  constructor
  · intro h
    simp only [List.takeWhile] at h
    by_cases hc : p c = true
    · rw [hc] at h; simp at h
    · exact Bool.eq_false_iff.mpr hc
  · intro h
    simp [List.takeWhile, h]

theorem isWordChar_of_isDigit {c : Char} (h : c.isDigit = true) : isWordChar c = true := by
  simp [isWordChar, h]

theorem digit_not_ii {d : Char} (h : d.isDigit = true) : (d == 'I' || d == 'i') = false := by
  have h1 : d ≠ 'I' := by rintro rfl; revert h; decide
  have h2 : d ≠ 'i' := by rintro rfl; revert h; decide
  simp [h1, h2]

theorem isWordChar_of_ii {c : Char} (h : (c == 'I' || c == 'i') = true) :
    isWordChar c = true := by
  rcases Bool.or_eq_true_iff.mp h with h1 | h1
  · rw [beq_iff_eq.mp h1]; decide
  · rw [beq_iff_eq.mp h1]; decide

theorem length_stripDash_le (l : Str) : (stripDash l).length ≤ l.length := by
  cases l with
  | nil => simp [stripDash]
  | cons c r =>
    simp only [stripDash]
    by_cases hc : c = '-'
    · rw [if_pos hc]; simp
    · rw [if_neg hc]

theorem normAux_nil (fuel : Nat) (w : Bool) : normAux fuel w [] = [] := by
  cases fuel <;> rfl

theorem canonAux_nil (fuel : Nat) (w : Bool) : canonAux fuel w [] = true := by
  cases fuel <;> rfl

theorem matchAt_none_of_not_ii {c : Char} (rest : Str)
    (h : (c == 'I' || c == 'i') = false) : matchAt (c :: rest) = none := by
  simp only [matchAt, h]
  simp

theorem matchAt_none_of_empty_digits {c : Char} {rest : Str}
    (h : (stripDash rest).takeWhile Char.isDigit = []) : matchAt (c :: rest) = none := by
  simp only [matchAt, h]
  simp

theorem matchAt_none_of_bad_boundary {c : Char} {rest : Str}
    (h : boundaryOk ((stripDash rest).dropWhile Char.isDigit) = false) :
    matchAt (c :: rest) = none := by
  simp only [matchAt, h]
  by_cases hii : (c == 'I' || c == 'i') = true
  · rw [if_pos hii]
    by_cases he : ((stripDash rest).takeWhile Char.isDigit).isEmpty = true
    · rw [if_pos he]
    · rw [if_neg he]
      simp
  · rw [if_neg hii]

/-- Inversion of a failed match for a candidate `I`/`i` head: either there
is no digit run after the optional dash, or the trailing boundary fails. -/
theorem matchAt_none_inv {c : Char} {rest : Str}
    (h : matchAt (c :: rest) = none) (hii : (c == 'I' || c == 'i') = true) :
    (stripDash rest).takeWhile Char.isDigit = [] ∨
      boundaryOk ((stripDash rest).dropWhile Char.isDigit) = false := by
  by_cases he : (stripDash rest).takeWhile Char.isDigit = []
  · exact Or.inl he
  · right
    by_cases hb : boundaryOk ((stripDash rest).dropWhile Char.isDigit) = true
    · exfalso
      have : matchAt (c :: rest) =
          some ('I' :: '-' :: (stripDash rest).takeWhile Char.isDigit,
            (stripDash rest).dropWhile Char.isDigit) := by
        simp only [matchAt, hii, if_pos, hb]
        rw [if_neg (by simpa [List.isEmpty_iff] using he)]
      rw [h] at this
      cases this
    · exact Bool.eq_false_iff.mpr hb

/-- Decomposition of a successful match. -/
theorem matchAt_some_inv {c : Char} {rest rep after : Str}
    (h : matchAt (c :: rest) = some (rep, after)) :
    (c == 'I' || c == 'i') = true ∧
    ∃ ds, ds ≠ [] ∧ (∀ d ∈ ds, d.isDigit = true) ∧ rep = 'I' :: '-' :: ds ∧
      stripDash rest = ds ++ after ∧ boundaryOk after = true ∧
      after.takeWhile Char.isDigit = [] := by
  by_cases hii : (c == 'I' || c == 'i') = true
  · refine ⟨hii, (stripDash rest).takeWhile Char.isDigit, ?_⟩
    by_cases he : ((stripDash rest).takeWhile Char.isDigit).isEmpty = true
    · exfalso
      rw [matchAt_none_of_empty_digits (List.isEmpty_iff.mp he)] at h
      cases h
    · by_cases hb : boundaryOk ((stripDash rest).dropWhile Char.isDigit) = true
      · have hsome : matchAt (c :: rest) =
            some ('I' :: '-' :: (stripDash rest).takeWhile Char.isDigit,
              (stripDash rest).dropWhile Char.isDigit) := by
          simp only [matchAt]
          rw [if_pos hii, if_neg he, if_pos hb]
        rw [h] at hsome
        have hrep : rep = 'I' :: '-' :: (stripDash rest).takeWhile Char.isDigit :=
          congrArg Prod.fst (Option.some.inj hsome)
        have hafter : after = (stripDash rest).dropWhile Char.isDigit :=
          congrArg Prod.snd (Option.some.inj hsome)
        refine ⟨by simpa [List.isEmpty_iff] using he,
          fun d hd => mem_takeWhile Char.isDigit _ d hd, hrep, ?_, ?_, ?_⟩
        · rw [hafter]
          exact (List.takeWhile_append_dropWhile _ _).symm
        · rw [hafter]; exact hb
        · rw [hafter]
          cases hdw : (stripDash rest).dropWhile Char.isDigit with
          | nil => rfl
          | cons a t =>
            rw [(takeWhile_cons_nil_iff Char.isDigit a t).mpr
              (dropWhile_head_not Char.isDigit _ a t hdw)]
      · exfalso
        rw [matchAt_none_of_bad_boundary (Bool.eq_false_iff.mpr hb)] at h
        cases h
  · exfalso
    rw [matchAt_none_of_not_ii rest (Bool.eq_false_iff.mpr hii)] at h
    cases h

/-- A canonical-form occurrence `I-<digits>` matches, and is replaced by
itself. -/
theorem matchAt_canonical (ds t : Str) (hne : ds ≠ [])
    (hds : ∀ d ∈ ds, d.isDigit = true) (ht : t.takeWhile Char.isDigit = [])
    (hb : boundaryOk t = true) :
    matchAt ('I' :: '-' :: (ds ++ t)) = some ('I' :: '-' :: ds, t) := by
  have hsd : stripDash ('-' :: (ds ++ t)) = ds ++ t := by simp [stripDash]
  have htw : (ds ++ t).takeWhile Char.isDigit = ds := by
    rw [takeWhile_append_all Char.isDigit ds t hds, ht, List.append_nil]
  have hdw : (ds ++ t).dropWhile Char.isDigit = t := by
    rw [dropWhile_append_all Char.isDigit ds t hds,
      dropWhile_eq_self_of_takeWhile_nil Char.isDigit t ht]
  simp only [matchAt, hsd, htw, hdw]
  rw [if_pos (by decide), if_neg (by simpa [List.isEmpty_iff] using hne), if_pos hb]

theorem matchAt_after_le {c : Char} {rest rep after : Str}
    (h : matchAt (c :: rest) = some (rep, after)) : after.length ≤ rest.length := by
  obtain ⟨-, ds, -, -, -, hsd, -, -⟩ := matchAt_some_inv h
  have h1 : (stripDash rest).length ≤ rest.length := length_stripDash_le rest
  rw [hsd] at h1
  simp only [List.length_append] at h1
  omega

/-- The scan does not depend on the fuel, as long as there is at least one
unit per character. -/
theorem normAux_fuel : ∀ (n : Nat) (l : Str), l.length ≤ n →
    ∀ (f g : Nat) (w : Bool), l.length ≤ f → l.length ≤ g →
      normAux f w l = normAux g w l := by
  intro n
  induction n with
  | zero =>
    intro l hl f g w _ _
    have : l = [] := List.length_eq_zero.mp (Nat.le_zero.mp hl)
    rw [this, normAux_nil, normAux_nil]
  | succ n ih =>
    intro l hl f g w hf hg
    cases l with
    | nil => rw [normAux_nil, normAux_nil]
    | cons c rest =>
      cases f with
      | zero => simp at hf
      | succ f =>
        cases g with
        | zero => simp at hg
        | succ g =>
          have hr : rest.length ≤ n := by simp at hl; omega
          have hrf : rest.length ≤ f := by simp at hf; omega
          have hrg : rest.length ≤ g := by simp at hg; omega
          simp only [normAux]
          cases w with
          | true =>
            simp only [if_pos]
            rw [ih rest hr f g (isWordChar c) hrf hrg]
          | false =>
            simp only [Bool.false_eq_true, if_false]
            cases hm : matchAt (c :: rest) with
            | none => rw [ih rest hr f g (isWordChar c) hrf hrg]
            | some pair =>
              obtain ⟨rep, after⟩ := pair
              have ha := matchAt_after_le hm
              show rep ++ normAux f true after = rep ++ normAux g true after
              rw [ih after (by omega) f g true (by omega) (by omega)]

theorem canonAux_fuel : ∀ (n : Nat) (l : Str), l.length ≤ n →
    ∀ (f g : Nat) (w : Bool), l.length ≤ f → l.length ≤ g →
      canonAux f w l = canonAux g w l := by
  intro n
  induction n with
  | zero =>
    intro l hl f g w _ _
    have : l = [] := List.length_eq_zero.mp (Nat.le_zero.mp hl)
    rw [this, canonAux_nil, canonAux_nil]
  | succ n ih =>
    intro l hl f g w hf hg
    cases l with
    | nil => rw [canonAux_nil, canonAux_nil]
    | cons c rest =>
      cases f with
      | zero => simp at hf
      | succ f =>
        cases g with
        | zero => simp at hg
        | succ g =>
          have hr : rest.length ≤ n := by simp at hl; omega
          have hrf : rest.length ≤ f := by simp at hf; omega
          have hrg : rest.length ≤ g := by simp at hg; omega
          simp only [canonAux]
          cases w with
          | true =>
            simp only [if_pos]
            rw [ih rest hr f g (isWordChar c) hrf hrg]
          | false =>
            simp only [Bool.false_eq_true, if_false]
            cases hm : matchAt (c :: rest) with
            | none => rw [ih rest hr f g (isWordChar c) hrf hrg]
            | some pair =>
              obtain ⟨rep, after⟩ := pair
              have ha := matchAt_after_le hm
              show (((c :: rest).take ((c :: rest).length - after.length) == rep)
                  && canonAux f true after)
                = (((c :: rest).take ((c :: rest).length - after.length) == rep)
                  && canonAux g true after)
              rw [ih after (by omega) f g true (by omega) (by omega)]

/-! Step equations for `normRun` and `canonRun`. -/

theorem normRun_nil (w : Bool) : normRun w [] = [] := rfl

theorem normRun_true_cons (c : Char) (rest : Str) :
    normRun true (c :: rest) = c :: normRun (isWordChar c) rest := rfl

theorem normRun_false_none {c : Char} {rest : Str} (h : matchAt (c :: rest) = none) :
    normRun false (c :: rest) = c :: normRun (isWordChar c) rest := by
  show normAux (rest.length + 1) false (c :: rest) = _
  simp only [normAux, Bool.false_eq_true, if_false, h]
  rfl

theorem normRun_false_some {c : Char} {rest rep after : Str}
    (h : matchAt (c :: rest) = some (rep, after)) :
    normRun false (c :: rest) = rep ++ normRun true after := by
  show normAux (rest.length + 1) false (c :: rest) = _
  simp only [normAux, Bool.false_eq_true, if_false, h]
  rw [normAux_fuel rest.length after (matchAt_after_le h) rest.length after.length true
    (matchAt_after_le h) (Nat.le_refl _)]
  rfl

theorem canonRun_nil (w : Bool) : canonRun w [] = true := rfl

theorem canonRun_true_cons (c : Char) (rest : Str) :
    canonRun true (c :: rest) = canonRun (isWordChar c) rest := rfl

theorem canonRun_false_none {c : Char} {rest : Str} (h : matchAt (c :: rest) = none) :
    canonRun false (c :: rest) = canonRun (isWordChar c) rest := by
  show canonAux (rest.length + 1) false (c :: rest) = _
  simp only [canonAux, Bool.false_eq_true, if_false, h]
  rfl

theorem canonRun_false_some {c : Char} {rest rep after : Str}
    (h : matchAt (c :: rest) = some (rep, after)) :
    canonRun false (c :: rest) =
      (((c :: rest).take ((c :: rest).length - after.length) == rep)
        && canonRun true after) := by
  show canonAux (rest.length + 1) false (c :: rest) = _
  simp only [canonAux, Bool.false_eq_true, if_false, h]
  rw [canonAux_fuel rest.length after (matchAt_after_le h) rest.length after.length true
    (matchAt_after_le h) (Nat.le_refl _)]
  rfl

/-- A digit is copied by the scan whatever the boundary state, and leaves
the scan in word state. -/
theorem normRun_digit_cons {d : Char} (hd : d.isDigit = true) (t : Str) (w : Bool) :
    normRun w (d :: t) = d :: normRun true t := by
  cases w with
  | true => rw [normRun_true_cons, isWordChar_of_isDigit hd]
  | false =>
    rw [normRun_false_none (matchAt_none_of_not_ii t (digit_not_ii hd)),
      isWordChar_of_isDigit hd]

/-- A non-empty run of digits is copied verbatim by the scan. -/
theorem normRun_digits_append (ds : Str) (hne : ds ≠ [])
    (hds : ∀ d ∈ ds, d.isDigit = true) (t : Str) (w : Bool) :
    normRun w (ds ++ t) = ds ++ normRun true t := by
  induction ds generalizing w with
  | nil => exact absurd rfl hne
  | cons d ds ih =>
    have hd : d.isDigit = true := hds d (by simp)
    cases ds with
    | nil => simpa using normRun_digit_cons hd t w
    | cons e es =>
      rw [List.cons_append, normRun_digit_cons hd ((e :: es) ++ t) w,
        ih (by simp) (fun a ha => hds a (by simp [ha])) true]
      rfl

/-- If the input starts no digit run, neither does its scan result. -/
theorem normRun_takeWhile_nil (w : Bool) (r2 : Str)
    (hemp : r2.takeWhile Char.isDigit = []) :
    (normRun w r2).takeWhile Char.isDigit = [] := by
  cases r2 with
  | nil => rw [normRun_nil]; rfl
  | cons a r =>
    have ha : a.isDigit = false := (takeWhile_cons_nil_iff Char.isDigit a r).mp hemp
    cases w with
    | true =>
      rw [normRun_true_cons]
      exact (takeWhile_cons_nil_iff Char.isDigit a _).mpr ha
    | false =>
      cases hm : matchAt (a :: r) with
      | none =>
        rw [normRun_false_none hm]
        exact (takeWhile_cons_nil_iff Char.isDigit a _).mpr ha
      | some pair =>
        obtain ⟨rep, after⟩ := pair
        obtain ⟨-, ds, -, -, hrep, -, -, -⟩ := matchAt_some_inv hm
        rw [normRun_false_some hm, hrep]
        exact (takeWhile_cons_nil_iff Char.isDigit 'I' _).mpr (by decide)

/-- The head-shape facts needed about a scan result: a failed digit run or
boundary at the head of the input fails the same way at the head of the
scan result. -/
theorem normRun_preserves_fail (w : Bool) (r2 : Str)
    (hfail : r2.takeWhile Char.isDigit = [] ∨
      boundaryOk (r2.dropWhile Char.isDigit) = false) :
    (normRun w r2).takeWhile Char.isDigit = [] ∨
      boundaryOk ((normRun w r2).dropWhile Char.isDigit) = false := by
  rcases hfail with hemp | hbad
  · exact Or.inl (normRun_takeWhile_nil w r2 hemp)
  · by_cases hne : r2.takeWhile Char.isDigit = []
    · exact Or.inl (normRun_takeWhile_nil w r2 hne)
    · obtain ⟨a, t, hat⟩ : ∃ a t, r2.dropWhile Char.isDigit = a :: t := by
        cases hdw : r2.dropWhile Char.isDigit with
        | nil => rw [hdw] at hbad; cases hbad
        | cons a t => exact ⟨a, t, rfl⟩
      have haw : isWordChar a = true := by
        rw [hat] at hbad
        simp only [boundaryOk, Bool.not_eq_false'] at hbad
        exact hbad
      have had : a.isDigit = false := dropWhile_head_not Char.isDigit r2 a t hat
      have hsplit : r2 = r2.takeWhile Char.isDigit ++ (a :: t) := by
        rw [← hat]
        exact (List.takeWhile_append_dropWhile _ _).symm
      have hds : ∀ d ∈ r2.takeWhile Char.isDigit, d.isDigit = true :=
        fun d hd => mem_takeWhile Char.isDigit r2 d hd
      have hrun : normRun w r2
          = r2.takeWhile Char.isDigit ++ (a :: normRun (isWordChar a) t) := by
        conv_lhs => rw [hsplit]
        rw [normRun_digits_append _ hne hds _ w, normRun_true_cons]
      right
      rw [hrun, dropWhile_append_all Char.isDigit _ _ hds,
        dropWhile_eq_self_of_takeWhile_nil Char.isDigit _
          ((takeWhile_cons_nil_iff Char.isDigit a _).mpr had)]
      simp [boundaryOk, haw]

/-- Scanning does not create a match where the source text had none:
if the pattern fails at an `I`/`i` head, it still fails there after the
remainder has been rewritten. -/
theorem matchAt_none_pres {c : Char} {rest : Str}
    (h : matchAt (c :: rest) = none) (hii : (c == 'I' || c == 'i') = true) :
    matchAt (c :: normRun true rest) = none := by
  have hfail := matchAt_none_inv h hii
  cases rest with
  | nil =>
    rw [normRun_nil]
    exact h
  | cons x r =>
    by_cases hx : x = '-'
    · subst hx
      have hsd : stripDash ('-' :: r) = r := by simp [stripDash]
      rw [hsd] at hfail
      rw [normRun_true_cons]
      have hw : isWordChar '-' = false := by decide
      rw [hw]
      have hsd2 : stripDash ('-' :: normRun false r) = normRun false r := by simp [stripDash]
      rcases normRun_preserves_fail false r hfail with hemp | hbad
      · exact matchAt_none_of_empty_digits (by rw [hsd2]; exact hemp)
      · exact matchAt_none_of_bad_boundary (by rw [hsd2]; exact hbad)
    · have hsd : stripDash (x :: r) = x :: r := by simp [stripDash, hx]
      rw [hsd] at hfail
      rcases normRun_preserves_fail true (x :: r) hfail with hemp | hbad
      · have hx2 : (normRun true (x :: r)).takeWhile Char.isDigit = [] := hemp
        rw [normRun_true_cons] at hx2 ⊢
        have : stripDash (x :: normRun (isWordChar x) r) = x :: normRun (isWordChar x) r := by
          simp [stripDash, hx]
        exact matchAt_none_of_empty_digits (by rw [this]; exact hx2)
      · rw [normRun_true_cons] at hbad ⊢
        have : stripDash (x :: normRun (isWordChar x) r) = x :: normRun (isWordChar x) r := by
          simp [stripDash, hx]
        exact matchAt_none_of_bad_boundary (by rw [this]; exact hbad)

/-- A trailing boundary survives scanning. -/
theorem normRun_boundaryOk (after : Str) (hb : boundaryOk after = true) :
    boundaryOk (normRun true after) = true := by
  cases after with
  | nil => rw [normRun_nil]; rfl
  | cons a t =>
    simp only [boundaryOk, Bool.not_eq_true'] at hb
    rw [normRun_true_cons]
    simp [boundaryOk, hb]

/-- Idempotence of the scan, at every boundary state. -/
theorem normRun_idem_aux : ∀ (n : Nat) (l : Str), l.length ≤ n → ∀ w : Bool,
    normRun w (normRun w l) = normRun w l := by
  intro n
  induction n with
  | zero =>
    intro l hl w
    have : l = [] := List.length_eq_zero.mp (Nat.le_zero.mp hl)
    rw [this, normRun_nil, normRun_nil]
  | succ n ih =>
    intro l hl w
    cases l with
    | nil => rw [normRun_nil, normRun_nil]
    | cons c rest =>
      have hr : rest.length ≤ n := by simp at hl; omega
      cases w with
      | true =>
        rw [normRun_true_cons, normRun_true_cons, ih rest hr (isWordChar c)]
      | false =>
        cases hm : matchAt (c :: rest) with
        | none =>
          rw [normRun_false_none hm]
          by_cases hii : (c == 'I' || c == 'i') = true
          · have hw : isWordChar c = true := isWordChar_of_ii hii
            rw [hw, normRun_false_none (matchAt_none_pres hm hii), hw,
              ih rest hr true]
          · have hii' : (c == 'I' || c == 'i') = false := Bool.eq_false_iff.mpr hii
            rw [normRun_false_none (matchAt_none_of_not_ii _ hii'),
              ih rest hr (isWordChar c)]
        | some pair =>
          obtain ⟨rep, after⟩ := pair
          obtain ⟨hii, ds, hne, hds, hrep, hsd, hb, htwa⟩ := matchAt_some_inv hm
          have hlen : after.length ≤ rest.length := matchAt_after_le hm
          rw [normRun_false_some hm]
          subst hrep
          have htwT : (normRun true after).takeWhile Char.isDigit = [] :=
            normRun_takeWhile_nil true after htwa
          have hbT : boundaryOk (normRun true after) = true := normRun_boundaryOk after hb
          have hcan := matchAt_canonical ds (normRun true after) hne hds htwT hbT
          have hstep : ('I' :: '-' :: ds) ++ normRun true after
              = 'I' :: '-' :: (ds ++ normRun true after) := by simp
          rw [hstep, normRun_false_some hcan, ih after (by omega) true]
          simp

/-- Every boundary-delimited occurrence of the pattern in a scan result is
already canonical. -/
theorem canonRun_normRun : ∀ (n : Nat) (l : Str), l.length ≤ n → ∀ w : Bool,
    canonRun w (normRun w l) = true := by
  intro n
  induction n with
  | zero =>
    intro l hl w
    have : l = [] := List.length_eq_zero.mp (Nat.le_zero.mp hl)
    rw [this, normRun_nil, canonRun_nil]
  | succ n ih =>
    intro l hl w
    cases l with
    | nil => rw [normRun_nil, canonRun_nil]
    | cons c rest =>
      have hr : rest.length ≤ n := by simp at hl; omega
      cases w with
      | true =>
        rw [normRun_true_cons, canonRun_true_cons, ih rest hr (isWordChar c)]
      | false =>
        cases hm : matchAt (c :: rest) with
        | none =>
          rw [normRun_false_none hm]
          by_cases hii : (c == 'I' || c == 'i') = true
          · have hw : isWordChar c = true := isWordChar_of_ii hii
            rw [hw, canonRun_false_none (matchAt_none_pres hm hii), hw,
              ih rest hr true]
          · have hii' : (c == 'I' || c == 'i') = false := Bool.eq_false_iff.mpr hii
            rw [canonRun_false_none (matchAt_none_of_not_ii _ hii'),
              ih rest hr (isWordChar c)]
        | some pair =>
          obtain ⟨rep, after⟩ := pair
          obtain ⟨hii, ds, hne, hds, hrep, hsd, hb, htwa⟩ := matchAt_some_inv hm
          have hlen : after.length ≤ rest.length := matchAt_after_le hm
          rw [normRun_false_some hm]
          subst hrep
          have htwT : (normRun true after).takeWhile Char.isDigit = [] :=
            normRun_takeWhile_nil true after htwa
          have hbT : boundaryOk (normRun true after) = true := normRun_boundaryOk after hb
          have hcan := matchAt_canonical ds (normRun true after) hne hds htwT hbT
          have hstep : ('I' :: '-' :: ds) ++ normRun true after
              = 'I' :: '-' :: (ds ++ normRun true after) := by simp
          rw [hstep, canonRun_false_some hcan]
          have hlen2 : ('I' :: '-' :: (ds ++ normRun true after)).length
              - (normRun true after).length = ds.length + 2 := by
            simp [List.length_append]
            omega
          have htake : ('I' :: '-' :: (ds ++ normRun true after)).take
              (('I' :: '-' :: (ds ++ normRun true after)).length
                - (normRun true after).length) = 'I' :: '-' :: ds := by
            rw [hlen2]
            show List.take (ds.length + 1 + 1) ('I' :: '-' :: (ds ++ normRun true after))
              = 'I' :: '-' :: ds
            rw [List.take_succ_cons, List.take_succ_cons, List.take_left]
          rw [htake]
          simp only [beq_self_eq_true, Bool.true_and]
          exact ih after (by omega) true

/-! ## Claim theorems about `_normalize_interstate` -/

/-- **C5**.  `_normalize_interstate` is idempotent: normalizing twice gives
the same result as normalizing once, for every string. -/
theorem claim_c5_normalize_idempotent (s : Str) :
    normalize_interstate (normalize_interstate s) = normalize_interstate s :=
  normRun_idem_aux s.length s (Nat.le_refl _) false

/-- **C4** (counterexample).  The claim reads `_normalize_interstate` as
rewriting every substring matching `[Ii](-?)(\d+)` wherever it occurs.  The
source pattern carries `\b` word boundaries, so the occurrence `I10` inside
the word `HI10` is left unchanged, while the claim's reading
(`rewrite_everywhere`) would produce `HI-10`. -/
theorem claim_c4_counterexample :
    normalize_interstate ("HI10".toList) = "HI10".toList ∧
    rewrite_everywhere ("HI10".toList) = "HI-10".toList ∧
    ("HI10".toList : Str) ≠ "HI-10".toList := by
  refine ⟨by decide, by decide, by decide⟩

/-- **C4** (amended).  `_normalize_interstate` rewrites every substring
matching `[Ii](-?)(\d+)` that is delimited by word boundaries (not adjacent
to a letter, digit or underscore) into `I-<digits>`: in its output every
boundary-delimited occurrence of the pattern is in canonical form; and in
particular normalizing `"I10 and i-17"` yields `"I-10 and I-17"`. -/
theorem claim_c4_amended_boundary_normalization :
    (∀ s : Str, allCanonical (normalize_interstate s) = true) ∧
    normalize_interstate ("I10 and i-17".toList) = "I-10 and I-17".toList := by
  constructor
  · intro s
    exact canonRun_normRun s.length s (Nat.le_refl _) false
  · decide

/-! ## Lemmas about the dedup loop of `main` -/

theorem dedup_sublist : ∀ (l : List Accident) (seen : List (Str × Str × Str × Str)),
    List.Sublist (dedup_accidents l seen) l := by
  intro l
  induction l with
  | nil => intro seen; simp [dedup_accidents]
  | cons a rest ih =>
    intro seen
    simp only [dedup_accidents]
    split
    · exact List.Sublist.cons a (ih seen)
    · exact List.Sublist.cons₂ a (ih _)

theorem dedup_mem_inv : ∀ (l : List Accident) (seen : List (Str × Str × Str × Str))
    (a : Accident), a ∈ dedup_accidents l seen →
      accident_key a ∉ seen ∧ ∃ pre post, l = pre ++ a :: post ∧
        ∀ b ∈ pre, accident_key b ≠ accident_key a := by
  intro l
  induction l with
  | nil => intro seen a h; simp [dedup_accidents] at h
  | cons x rest ih =>
    intro seen a h
    simp only [dedup_accidents] at h
    by_cases hx : accident_key x ∈ seen
    · rw [if_pos hx] at h
      obtain ⟨hns, pre, post, hsplit, hpre⟩ := ih seen a h
      refine ⟨hns, x :: pre, post, by rw [hsplit]; rfl, ?_⟩
      intro b hb
      rcases List.mem_cons.mp hb with rfl | hb2
      · intro hk; rw [hk] at hx; exact hns hx
      · exact hpre b hb2
    · rw [if_neg hx] at h
      rcases List.mem_cons.mp h with rfl | h2
      · exact ⟨hx, [], rest, rfl, by simp⟩
      · obtain ⟨hns, pre, post, hsplit, hpre⟩ := ih _ a h2
        have hne : accident_key a ≠ accident_key x := by
          intro hk; exact hns (by rw [hk]; simp)
        refine ⟨fun hs => hns (by simp [hs]), x :: pre, post, by rw [hsplit]; rfl, ?_⟩
        intro b hb
        rcases List.mem_cons.mp hb with rfl | hb2
        · exact fun hk => hne hk.symm
        · exact hpre b hb2

theorem dedup_keys_nodup : ∀ (l : List Accident) (seen : List (Str × Str × Str × Str)),
    ((dedup_accidents l seen).map accident_key).Nodup := by
  intro l
  induction l with
  | nil => intro seen; simp [dedup_accidents]
  | cons x rest ih =>
    intro seen
    simp only [dedup_accidents]
    split
    · exact ih seen
    · rw [List.map_cons, List.nodup_cons]
      refine ⟨?_, ih _⟩
      intro hmem
      obtain ⟨a, ha, hk⟩ := List.mem_map.mp hmem
      have := (dedup_mem_inv rest _ a ha).1
      exact this (by rw [hk]; simp)

theorem dedup_covers : ∀ (l : List Accident) (seen : List (Str × Str × Str × Str))
    (a : Accident), a ∈ l →
      accident_key a ∈ seen ∨
        ∃ b ∈ dedup_accidents l seen, accident_key b = accident_key a := by
  intro l
  induction l with
  | nil => intro seen a h; simp at h
  | cons x rest ih =>
    intro seen a h
    simp only [dedup_accidents]
    by_cases hx : accident_key x ∈ seen
    · rw [if_pos hx]
      rcases List.mem_cons.mp h with rfl | h2
      · exact Or.inl hx
      · exact ih seen a h2
    · rw [if_neg hx]
      rcases List.mem_cons.mp h with rfl | h2
      · exact Or.inr ⟨a, by simp, rfl⟩
      · rcases ih (accident_key x :: seen) a h2 with hs | ⟨b, hb, hk⟩
        · rcases List.mem_cons.mp hs with heq | hs2
          · exact Or.inr ⟨x, by simp, heq.symm⟩
          · exact Or.inl hs2
        · exact Or.inr ⟨b, by simp [hb], hk⟩

/-! ## Claim theorems about the listener, the sender and the dedup loop -/

/-- **C6**.  The dedup loop of `main` emits a sublist of the source records
(source order, no record invented); no two emitted records share a dedup
key; every emitted record is the first record of the source list bearing
its key; every source record's key is represented by an emitted record; and
of two records with equal keys — in particular differing only in
description — only the first is emitted. -/
theorem claim_c6_dedup_first_occurrence (l : List Accident) :
    List.Sublist (dedup_accidents l []) l ∧
    ((dedup_accidents l []).map accident_key).Nodup ∧
    (∀ a ∈ dedup_accidents l [], ∃ pre post, l = pre ++ a :: post ∧
      ∀ b ∈ pre, accident_key b ≠ accident_key a) ∧
    (∀ a ∈ l, ∃ b ∈ dedup_accidents l [], accident_key b = accident_key a) ∧
    (∀ a₁ a₂ : Accident, accident_key a₁ = accident_key a₂ →
      dedup_accidents [a₁, a₂] [] = [a₁]) := by
  refine ⟨dedup_sublist l [], dedup_keys_nodup l [],
    fun a ha => (dedup_mem_inv l [] a ha).2,
    fun a ha => ?_, fun a₁ a₂ h => ?_⟩
  · rcases dedup_covers l [] a ha with hs | hb
    · simp at hs
    · exact hb
  · simp [dedup_accidents, h]

/-- Witness for C6 on two concrete accidents with equal keys and different
descriptions. -/
theorem claim_c6_witness :
    (∃ pre post, [accident_a, accident_b] = pre ++ accident_a :: post ∧
      ∀ b ∈ pre, accident_key b ≠ accident_key accident_a) ∧
    (∃ b ∈ dedup_accidents [accident_a, accident_b] [],
      accident_key b = accident_key accident_b) ∧
    dedup_accidents [accident_a, accident_b] [] = [accident_a] :=
  ⟨(claim_c6_dedup_first_occurrence [accident_a, accident_b]).2.2.1 accident_a (by decide),
   (claim_c6_dedup_first_occurrence [accident_a, accident_b]).2.2.2.1 accident_b (by decide),
   (claim_c6_dedup_first_occurrence [accident_a, accident_b]).2.2.2.2 accident_a accident_b rfl⟩

/-- **C7**.  A packet whose sender equals the local node identifier (when
the transport exposes one) is never dispatched to the command grammar and
triggers no handler: `_process_command` is not reached and nothing is
sent, whatever the packet text, configured channel, collaborator state and
result limit. -/
theorem claim_c7_self_echo_never_dispatched (channelIndex : Nat) (pkt : Packet)
    (n : Nat) (h : pkt.sender = some n) (collab : Collab) (maxResults : Nat) :
    dispatched_text channelIndex (some n) pkt = none ∧
    on_message_received channelIndex (some n) pkt collab maxResults = [] := by
  have hecho : isOurMessage (some n) pkt = true := by
    simp [isOurMessage, h]
  have hdisp : dispatched_text channelIndex (some n) pkt = none := by
    unfold dispatched_text
    cases admitted_text channelIndex pkt with
    | none => rfl
    | some t => simp [hecho]
  refine ⟨hdisp, ?_⟩
  unfold on_message_received
  rw [hdisp]

/-- Witness for C7: the C1 packet received by its own sender (node 7). -/
theorem claim_c7_witness :
    dispatched_text 0 (some 7) c1_packet = none ∧
    on_message_received 0 (some 7) c1_packet
      { eventsTypeError := [], accidentsTypeError := [], alerts := [] } 3 = [] :=
  claim_c7_self_echo_never_dispatched 0 c1_packet 7 rfl
    { eventsTypeError := [], accidentsTypeError := [], alerts := [] } 3

/-- **C10**.  A packet with a decoded plain-text payload but no `channel`
key is treated as channel 0 (`packet.get('channel', 0)`): it passes the
channel filter exactly when the configured listening channel is 0. -/
theorem claim_c10_missing_channel_is_zero (channelIndex : Nat) (t : Str)
    (snd : Option Nat) :
    (channelIndex = 0 →
      admitted_text channelIndex
        { decoded := some { portnum := some "TEXT_MESSAGE_APP".toList, text := some t },
          channel := none, sender := snd } = some t) ∧
    (channelIndex ≠ 0 →
      admitted_text channelIndex
        { decoded := some { portnum := some "TEXT_MESSAGE_APP".toList, text := some t },
          channel := none, sender := snd } = none) := by
  constructor
  · intro h
    subst h
    simp [admitted_text]
  · intro h
    simp [admitted_text, Ne.symm h]

/-- Witness for C10 at channel 0 (admitted) and channel 2 (rejected). -/
theorem claim_c10_witness :
    admitted_text 0
      { decoded := some { portnum := some "TEXT_MESSAGE_APP".toList,
                          text := some "events phoenix".toList },
        channel := none, sender := some 7 } = some "events phoenix".toList ∧
    admitted_text 2
      { decoded := some { portnum := some "TEXT_MESSAGE_APP".toList,
                          text := some "events phoenix".toList },
        channel := none, sender := some 7 } = none :=
  ⟨(claim_c10_missing_channel_is_zero 0 "events phoenix".toList (some 7)).1 rfl,
   (claim_c10_missing_channel_is_zero 2 "events phoenix".toList (some 7)).2 (by decide)⟩

/-- **C9**.  For every message longer than the 200-character limit,
`send_message` returns `True` whatever the per-fragment outcomes and even
with no transport interface; a `False` return is only possible for an
unsplit message whose single `sendText` raises. -/
theorem claim_c9_long_send_always_true (message : Str)
    (iface : Option (Str → Except Unit Nat)) :
    (MAX_MESSAGE_LENGTH < message.length → send_message message iface = true) ∧
    (send_message message iface = false →
      message.length ≤ MAX_MESSAGE_LENGTH ∧
        ∃ f, iface = some f ∧ ∃ e, f message = Except.error e) := by
  constructor
  · intro h
    unfold send_message
    rw [if_pos h]
  · intro h
    by_cases hlen : message.length > MAX_MESSAGE_LENGTH
    · exfalso
      unfold send_message at h
      rw [if_pos hlen] at h
      simp at h
    · refine ⟨by omega, ?_⟩
      cases hif : iface with
      | none =>
        exfalso
        unfold send_message at h
        rw [if_neg hlen, hif] at h
        simp at h
      | some f =>
        cases hm : f message with
        | ok v =>
          exfalso
          unfold send_message at h
          rw [if_neg hlen, hif] at h
          simp [hm] at h
        | error e => exact ⟨f, rfl, e, hm⟩

set_option maxRecDepth 4000 in
/-- Witness for C9: a 201-character message with an always-raising
transport still yields `True`; a short message with a raising transport
yields `False`, exhibiting the only `False` case. -/
theorem claim_c9_witness :
    send_message (List.replicate 201 'a') (some fun _ => (Except.error () : Except Unit Nat)) = true ∧
    ((List.replicate 3 'a').length ≤ MAX_MESSAGE_LENGTH ∧
      ∃ f, (some fun _ => (Except.error () : Except Unit Nat)) = some f ∧
        ∃ e, f (List.replicate 3 'a') = Except.error e) :=
  ⟨(claim_c9_long_send_always_true (List.replicate 201 'a')
      (some fun _ => (Except.error () : Except Unit Nat))).1 (by decide),
   (claim_c9_long_send_always_true (List.replicate 3 'a')
      (some fun _ => (Except.error () : Except Unit Nat))).2 rfl⟩

/-- **C1** (code-bug evaluation).  On the packet `events phoenix` (channel
0, non-echo sender), the listener sends exactly one message — but it is the
dispatch-boundary error reply
`Error processing events request: <str(TypeError)[:100]>`, not
`No events found for 'phoenix'`: `_handle_events_command` calls
`self.adot_client.get_events(location=location)` while
`ADOTClient.get_events` accepts no `location` parameter, so the call raises
`TypeError` before any events are fetched.  The remainder of the handler,
run on a collaborator result with zero non-accident events as the claim
(and spec §4.2/§6) intends, would send exactly one message equal to
`No events found for 'phoenix'` (third conjunct). -/
theorem claim_c1_events_phoenix (collab : Collab) (maxResults : Nat) :
    on_message_received 0 (some 1) c1_packet collab maxResults
      = ["Error processing events request: ".toList ++ collab.eventsTypeError.take 100] ∧
    "Error processing events request: ".toList ++ collab.eventsTypeError.take 100
      ≠ "No events found for 'phoenix'".toList ∧
    handle_events_body "phoenix".toList [] maxResults
      = ["No events found for 'phoenix'".toList] := by
  refine ⟨rfl, ?_, rfl⟩
  intro h
  exact absurd (show ('E' : Char) = 'N' from congrArg (fun l : Str => l.headD ' ') h)
    (by decide)

end Adot
